import Mathlib

/-!
# Sharded word-adjacency suggestion engine: verification

The repository ships a generated word-pair shard
(`generated/2.9.0/html/ehc-all/Ehcache_Documentation_Set/pairs/pair69.js`)
feeding a documentation search-suggestion box.  The runtime engine around it
(WordGraph merge/evict, QueryEngine, ShardLoader, LRU eviction policy) is
described by the specification; the shard artifact itself is the only piece of
the engine present in the repository.  This file embeds the shard data
verbatim and models the engine components from the specification, then proves
the specification's testable properties about them.
-/

namespace WordPairs

/-- Association-list lookup: first binding of key `k`. -/
def alookup {κ β : Type} [DecidableEq κ] (k : κ) : List (κ × β) → Option β
  | [] => none
  | (k', v) :: rest => if k' = k then some v else alookup k rest

/-- The keys of an association list, in order. -/
def akeys {κ β : Type} (l : List (κ × β)) : List κ := l.map Prod.fst

/-- Insert-or-modify: the first binding of `k` becomes `f v`; when `k` is
absent, the binding `(k, d)` is appended at the end. -/
def upsert {κ β : Type} [DecidableEq κ] (k : κ) (d : β) (f : β → β) :
    List (κ × β) → List (κ × β)
  | [] => [(k, d)]
  | (k', v) :: rest =>
    if k' = k then (k', f v) :: rest else (k', v) :: upsert k d f rest

/-- Modify-or-delete: the first binding of `k` becomes `f v`, and is deleted
when `f v = none`; absent keys are untouched. -/
def adjust {κ β : Type} [DecidableEq κ] (k : κ) (f : β → Option β) :
    List (κ × β) → List (κ × β)
  | [] => []
  | (k', v) :: rest =>
    if k' = k then
      (match f v with
       | none => rest
       | some v' => (k', v') :: rest)
    else (k', v) :: adjust k f rest

@[simp] theorem akeys_nil {κ β : Type} : akeys ([] : List (κ × β)) = [] := rfl

@[simp] theorem akeys_cons {κ β : Type} (k : κ) (v : β) (l : List (κ × β)) :
    akeys ((k, v) :: l) = k :: akeys l := rfl

@[simp] theorem alookup_nil {κ β : Type} [DecidableEq κ] (k : κ) :
    alookup k ([] : List (κ × β)) = none := rfl

theorem alookup_cons {κ β : Type} [DecidableEq κ] (k k0 : κ) (v : β)
    (l : List (κ × β)) :
    alookup k ((k0, v) :: l) = if k0 = k then some v else alookup k l := rfl

theorem alookup_eq_none {κ β : Type} [DecidableEq κ] {k : κ}
    {l : List (κ × β)} (h : k ∉ akeys l) : alookup k l = none := by
  induction l with
  | nil => rfl
  | cons hd tl ih =>
    cases hd with
    | mk k0 v =>
      rw [akeys_cons, List.mem_cons] at h
      push_neg at h
      rw [alookup_cons, if_neg (fun e => h.1 e.symm), ih h.2]

theorem alookup_mem {κ β : Type} [DecidableEq κ] {k : κ} {v : β}
    {l : List (κ × β)} (h : alookup k l = some v) : (k, v) ∈ l := by
  induction l with
  | nil => simp [alookup] at h
  | cons hd tl ih =>
    cases hd with
    | mk k0 v0 =>
      rw [alookup_cons] at h
      by_cases hk : k0 = k
      · rw [if_pos hk] at h
        cases h
        subst hk
        exact List.mem_cons_self _ _
      · rw [if_neg hk] at h
        exact List.mem_cons_of_mem _ (ih h)

theorem mem_akeys_of_alookup {κ β : Type} [DecidableEq κ] {k : κ} {v : β}
    {l : List (κ × β)} (h : alookup k l = some v) : k ∈ akeys l := by
  have hm := alookup_mem h
  show k ∈ l.map Prod.fst
  exact List.mem_map_of_mem Prod.fst hm

theorem alookup_upsert_self {κ β : Type} [DecidableEq κ] (k : κ) (d : β)
    (f : β → β) (l : List (κ × β)) :
    alookup k (upsert k d f l) =
      some (match alookup k l with | none => d | some v => f v) := by
  induction l with
  | nil => simp [upsert, alookup]
  | cons hd tl ih =>
    cases hd with
    | mk k0 v =>
      by_cases hk : k0 = k
      · subst hk
        simp [upsert, alookup_cons]
      · simp only [upsert, if_neg hk, alookup_cons, if_neg hk]
        exact ih

theorem alookup_upsert_ne {κ β : Type} [DecidableEq κ] {k k' : κ} (d : β)
    (f : β → β) (l : List (κ × β)) (h : k' ≠ k) :
    alookup k' (upsert k d f l) = alookup k' l := by
  induction l with
  | nil =>
    show alookup k' [(k, d)] = alookup k' []
    rw [alookup_cons, if_neg (Ne.symm h), alookup_nil]
  | cons hd tl ih =>
    cases hd with
    | mk k0 v =>
      by_cases hk : k0 = k
      · subst hk
        simp [upsert, alookup_cons, Ne.symm h]
      · simp only [upsert, if_neg hk, alookup_cons]
        by_cases hk' : k0 = k'
        · rw [if_pos hk', if_pos hk']
        · rw [if_neg hk', if_neg hk']
          exact ih

theorem alookup_adjust_ne {κ β : Type} [DecidableEq κ] {k k' : κ}
    (f : β → Option β) (l : List (κ × β)) (h : k' ≠ k) :
    alookup k' (adjust k f l) = alookup k' l := by
  induction l with
  | nil => rfl
  | cons hd tl ih =>
    cases hd with
    | mk k0 v =>
      by_cases hk : k0 = k
      · subst hk
        cases hfv : f v with
        | none => simp [adjust, hfv, alookup_cons, Ne.symm h]
        | some v' => simp [adjust, hfv, alookup_cons, Ne.symm h]
      · simp only [adjust, if_neg hk, alookup_cons]
        by_cases hk' : k0 = k'
        · rw [if_pos hk', if_pos hk']
        · rw [if_neg hk', if_neg hk']
          exact ih

theorem alookup_adjust_self {κ β : Type} [DecidableEq κ] (k : κ)
    (f : β → Option β) (l : List (κ × β)) (h : (akeys l).Nodup) :
    alookup k (adjust k f l) = (alookup k l).bind f := by
  induction l with
  | nil => rfl
  | cons hd tl ih =>
    cases hd with
    | mk k0 v =>
      rw [akeys_cons, List.nodup_cons] at h
      by_cases hk : k0 = k
      · subst hk
        cases hfv : f v with
        | none => simp [adjust, hfv, alookup_cons, alookup_eq_none h.1]
        | some v' => simp [adjust, hfv, alookup_cons]
      · simp only [adjust, if_neg hk, alookup_cons, if_neg hk]
        exact ih h.2

theorem akeys_adjust_sublist {κ β : Type} [DecidableEq κ] (k : κ)
    (f : β → Option β) (l : List (κ × β)) :
    List.Sublist (akeys (adjust k f l)) (akeys l) := by
  induction l with
  | nil => exact List.Sublist.refl _
  | cons hd tl ih =>
    cases hd with
    | mk k0 v =>
      by_cases hk : k0 = k
      · subst hk
        cases hfv : f v with
        | none =>
          simp only [adjust, if_pos rfl, hfv, akeys_cons]
          exact List.Sublist.cons _ (List.Sublist.refl _)
        | some v' =>
          simp only [adjust, if_pos rfl, hfv, akeys_cons]
          exact List.Sublist.cons₂ _ (List.Sublist.refl _)
      · simp only [adjust, if_neg hk, akeys_cons]
        exact List.Sublist.cons₂ _ ih

theorem akeys_upsert_mem {κ β : Type} [DecidableEq κ] {k : κ} (d : β)
    (f : β → β) (l : List (κ × β)) (h : k ∈ akeys l) :
    akeys (upsert k d f l) = akeys l := by
  induction l with
  | nil => simp at h
  | cons hd tl ih =>
    cases hd with
    | mk k0 v =>
      by_cases hk : k0 = k
      · simp only [upsert, if_pos hk, akeys_cons]
      · rw [akeys_cons, List.mem_cons] at h
        rcases h with h | h
        · exact absurd h.symm hk
        · simp only [upsert, if_neg hk, akeys_cons, ih h]

theorem akeys_upsert_not_mem {κ β : Type} [DecidableEq κ] {k : κ} (d : β)
    (f : β → β) (l : List (κ × β)) (h : k ∉ akeys l) :
    akeys (upsert k d f l) = akeys l ++ [k] := by
  induction l with
  | nil => simp [upsert]
  | cons hd tl ih =>
    cases hd with
    | mk k0 v =>
      rw [akeys_cons, List.mem_cons] at h
      push_neg at h
      simp only [upsert, if_neg (Ne.symm h.1), akeys_cons,
        List.cons_append, ih h.2]

theorem nodup_akeys_upsert {κ β : Type} [DecidableEq κ] (k : κ) (d : β)
    (f : β → β) (l : List (κ × β)) (h : (akeys l).Nodup) :
    (akeys (upsert k d f l)).Nodup := by
  by_cases hk : k ∈ akeys l
  · rw [akeys_upsert_mem d f l hk]
    exact h
  · rw [akeys_upsert_not_mem d f l hk]
    simp [List.nodup_append, h, hk]

theorem nodup_akeys_adjust {κ β : Type} [DecidableEq κ] (k : κ)
    (f : β → Option β) (l : List (κ × β)) (h : (akeys l).Nodup) :
    (akeys (adjust k f l)).Nodup :=
  (akeys_adjust_sublist k f l).nodup h

theorem upsert_forall {κ β : Type} [DecidableEq κ] {k : κ} {d : β}
    {f : β → β} {l : List (κ × β)} (P : κ → β → Prop)
    (hl : ∀ p ∈ l, P p.1 p.2) (hd : P k d) (hf : ∀ v, P k v → P k (f v)) :
    ∀ p ∈ upsert k d f l, P p.1 p.2 := by
  induction l with
  | nil => simpa [upsert] using hd
  | cons hd0 tl ih =>
    cases hd0 with
    | mk k0 v =>
      by_cases hk : k0 = k
      · subst hk
        simp only [upsert, if_pos rfl]
        intro p hp
        rcases List.mem_cons.mp hp with h | h
        · subst h
          exact hf v (hl (k0, v) (List.mem_cons_self _ _))
        · exact hl p (List.mem_cons_of_mem _ h)
      · simp only [upsert, if_neg hk]
        intro p hp
        rcases List.mem_cons.mp hp with h | h
        · subst h
          exact hl (k0, v) (List.mem_cons_self _ _)
        · exact ih (fun q hq => hl q (List.mem_cons_of_mem _ hq)) p h

theorem adjust_forall {κ β : Type} [DecidableEq κ] {k : κ}
    {f : β → Option β} {l : List (κ × β)} (P : κ → β → Prop)
    (hl : ∀ p ∈ l, P p.1 p.2)
    (hf : ∀ v v', P k v → f v = some v' → P k v') :
    ∀ p ∈ adjust k f l, P p.1 p.2 := by
  induction l with
  | nil => simp [adjust]
  | cons hd0 tl ih =>
    cases hd0 with
    | mk k0 v =>
      by_cases hk : k0 = k
      · subst hk
        cases hfv : f v with
        | none =>
          simp only [adjust, if_pos rfl, hfv]
          exact fun p hp => hl p (List.mem_cons_of_mem _ hp)
        | some v' =>
          simp only [adjust, if_pos rfl, hfv]
          intro p hp
          rcases List.mem_cons.mp hp with h | h
          · subst h
            exact hf v v' (hl (k0, v) (List.mem_cons_self _ _)) hfv
          · exact hl p (List.mem_cons_of_mem _ h)
      · simp only [adjust, if_neg hk]
        intro p hp
        rcases List.mem_cons.mp hp with h | h
        · subst h
          exact hl (k0, v) (List.mem_cons_self _ _)
        · exact ih (fun q hq => hl q (List.mem_cons_of_mem _ hq)) p h

theorem upsert_ne_nil {κ β : Type} [DecidableEq κ] (k : κ) (d : β)
    (f : β → β) (l : List (κ × β)) : upsert k d f l ≠ [] := by
  cases l with
  | nil => simp [upsert]
  | cons hd tl =>
    cases hd with
    | mk k0 v =>
      by_cases hk : k0 = k
      · simp [upsert, hk]
      · simp [upsert, hk]

/-- Add `w` to the weight bound to `k`, inserting the binding when absent. -/
def bump {κ : Type} [DecidableEq κ] (k : κ) (w : Nat) :
    List (κ × Nat) → List (κ × Nat) :=
  upsert k w (· + w)

/-- Subtract `w` from the weight bound to `k`, deleting the binding when the
weight reaches zero; absent keys are untouched. -/
def wsub {κ : Type} [DecidableEq κ] (k : κ) (w : Nat) :
    List (κ × Nat) → List (κ × Nat) :=
  adjust k (fun v => if v - w = 0 then none else some (v - w))

/-- The weight bound to `k`, zero when absent. -/
def wval {κ : Type} [DecidableEq κ] (k : κ) (l : List (κ × Nat)) : Nat :=
  (alookup k l).getD 0

/-- Total weight of an association list. -/
def vsum {κ : Type} (l : List (κ × Nat)) : Nat := (l.map Prod.snd).sum

@[simp] theorem vsum_nil {κ : Type} : vsum ([] : List (κ × Nat)) = 0 := rfl

@[simp] theorem vsum_cons {κ : Type} (k : κ) (v : Nat) (l : List (κ × Nat)) :
    vsum ((k, v) :: l) = v + vsum l := rfl

theorem wval_bump_self {κ : Type} [DecidableEq κ] (k : κ) (w : Nat)
    (l : List (κ × Nat)) : wval k (bump k w l) = wval k l + w := by
  unfold wval bump
  rw [alookup_upsert_self]
  cases h : alookup k l with
  | none => simp
  | some v => simp

theorem wval_bump_ne {κ : Type} [DecidableEq κ] {k k' : κ} (w : Nat)
    (l : List (κ × Nat)) (h : k' ≠ k) : wval k' (bump k w l) = wval k' l := by
  unfold wval bump
  rw [alookup_upsert_ne _ _ _ h]

theorem wval_wsub_self {κ : Type} [DecidableEq κ] (k : κ) (w : Nat)
    (l : List (κ × Nat)) (h : (akeys l).Nodup) :
    wval k (wsub k w l) = wval k l - w := by
  unfold wval wsub
  rw [alookup_adjust_self _ _ _ h]
  cases hv : alookup k l with
  | none => simp
  | some v =>
    by_cases h0 : v - w = 0
    · simp [h0]
    · simp [h0]

theorem wval_wsub_ne {κ : Type} [DecidableEq κ] {k k' : κ} (w : Nat)
    (l : List (κ × Nat)) (h : k' ≠ k) : wval k' (wsub k w l) = wval k' l := by
  unfold wval wsub
  rw [alookup_adjust_ne _ _ h]

theorem vsum_bump {κ : Type} [DecidableEq κ] (k : κ) (w : Nat)
    (l : List (κ × Nat)) : vsum (bump k w l) = vsum l + w := by
  induction l with
  | nil => simp [bump, upsert, vsum]
  | cons hd tl ih =>
    cases hd with
    | mk k0 v =>
      by_cases hk : k0 = k
      · simp only [bump, upsert, if_pos hk, vsum_cons]
        omega
      · simp only [bump, upsert, if_neg hk, vsum_cons]
        unfold bump at ih
        omega

theorem wval_le_vsum {κ : Type} [DecidableEq κ] (k : κ)
    (l : List (κ × Nat)) : wval k l ≤ vsum l := by
  induction l with
  | nil => simp [wval]
  | cons hd tl ih =>
    cases hd with
    | mk k0 v =>
      unfold wval
      rw [alookup_cons]
      by_cases hk : k0 = k
      · rw [if_pos hk]
        simp only [vsum_cons, Option.getD_some]
        omega
      · rw [if_neg hk]
        simp only [vsum_cons]
        unfold wval at ih
        omega

theorem filter_ne_eq_self {κ : Type} [DecidableEq κ] {k : κ}
    {l : List (κ × Nat)} (h : k ∉ akeys l) :
    l.filter (fun q => decide (¬ (q.1 = k))) = l := by
  induction l with
  | nil => rfl
  | cons hd tl ih =>
    cases hd with
    | mk k0 v =>
      rw [akeys_cons, List.mem_cons] at h
      push_neg at h
      rw [List.filter_cons_of_pos (by simpa using Ne.symm h.1)]
      rw [ih h.2]

theorem vsum_filter_ne {κ : Type} [DecidableEq κ] (k : κ)
    (l : List (κ × Nat)) (h : (akeys l).Nodup) :
    vsum (l.filter (fun q => decide (¬ (q.1 = k)))) = vsum l - wval k l := by
  induction l with
  | nil => simp [wval]
  | cons hd tl ih =>
    cases hd with
    | mk k0 v =>
      rw [akeys_cons, List.nodup_cons] at h
      by_cases hk : k0 = k
      · subst hk
        rw [List.filter_cons_of_neg (by simp)]
        rw [filter_ne_eq_self h.1]
        unfold wval
        rw [alookup_cons, if_pos rfl]
        simp only [vsum_cons, Option.getD_some]
        omega
      · rw [List.filter_cons_of_pos (by simpa using hk)]
        rw [vsum_cons, vsum_cons, ih h.2]
        unfold wval
        rw [alookup_cons, if_neg hk]
        have := wval_le_vsum k tl
        unfold wval at this
        omega

/-- A word-adjacency shard: an id together with a mapping from source word to
(successor word → weight), the shape of the `pairs` object in
`pairs/pair69.js`. -/
structure Shard where
  sid : Nat
  data : List (String × List (String × Nat))
deriving DecidableEq

/-- Modelled from the spec: the WordGraph component is absent from the
repository (only the shard data artifact is present).  `agg` is the live
aggregate mapping source word → (successor word → aggregated weight),
`contribs` the per-edge per-shard contribution bookkeeping
(edge → shard id → weight), and `mergedIds` the set of currently-merged
shard ids. -/
structure WordGraph where
  mergedIds : List Nat
  agg : List (String × List (String × Nat))
  contribs : List ((String × String) × List (Nat × Nat))
deriving DecidableEq

/-- The WordGraph a process starts with: empty in every component. -/
def emptyGraph : WordGraph := ⟨[], [], []⟩

/-- All (source, successor, weight) triples of a shard, in artifact order. -/
def shardTriples (s : Shard) : List (String × String × Nat) :=
  s.data.flatMap (fun p => p.2.map (fun q => (p.1, q.1, q.2)))

/-- Add weight `w` to edge (src, succ) of the aggregate mapping. -/
def addEdge (src succ : String) (w : Nat)
    (a : List (String × List (String × Nat))) :
    List (String × List (String × Nat)) :=
  upsert src [(succ, w)] (bump succ w) a

/-- Record a contribution of weight `w` by shard `sid` to edge `e`. -/
def addContrib (e : String × String) (sid w : Nat)
    (c : List ((String × String) × List (Nat × Nat))) :
    List ((String × String) × List (Nat × Nat)) :=
  upsert e [(sid, w)] (bump sid w) c

/-- Add every triple of a list to the aggregate mapping, in order. -/
def mergeAgg : List (String × String × Nat) →
    List (String × List (String × Nat)) → List (String × List (String × Nat))
  | [], a => a
  | t :: T, a => mergeAgg T (addEdge t.1 t.2.1 t.2.2 a)

/-- Record every triple of a list as a contribution of shard `sid`. -/
def mergeContribs (sid : Nat) : List (String × String × Nat) →
    List ((String × String) × List (Nat × Nat)) →
    List ((String × String) × List (Nat × Nat))
  | [], c => c
  | t :: T, c => mergeContribs sid T (addContrib (t.1, t.2.1) sid t.2.2 c)

/-- Modelled from the spec: `WordGraph.mergeShard` is absent from the
repository.  For every edge in the shard it adds the weight to the aggregate
and records the per-shard contribution; merging a shard id that is already in
`mergedIds` is a no-op. -/
def mergeShard (s : Shard) (g : WordGraph) : WordGraph :=
  if s.sid ∈ g.mergedIds then g
  else
    { mergedIds := s.sid :: g.mergedIds
      agg := mergeAgg (shardTriples s) g.agg
      contribs := mergeContribs s.sid (shardTriples s) g.contribs }

/-- Subtract weight `w` from edge (src, succ): edges whose weight reaches zero
are removed, and a source word whose successor map becomes empty is removed. -/
def subEdge (src succ : String) (w : Nat)
    (a : List (String × List (String × Nat))) :
    List (String × List (String × Nat)) :=
  adjust src
    (fun m => if wsub succ w m = [] then none else some (wsub succ w m)) a

/-- The edges shard `sid` contributed to, with the contributed weights. -/
def shardContribOf (sid : Nat)
    (c : List ((String × String) × List (Nat × Nat))) :
    List ((String × String) × Nat) :=
  c.filterMap (fun p => (alookup sid p.2).map (fun w => (p.1, w)))

/-- Remove shard `sid` from every contribution entry, dropping entries whose
contribution map becomes empty. -/
def removeShard (sid : Nat) :
    List ((String × String) × List (Nat × Nat)) →
    List ((String × String) × List (Nat × Nat))
  | [] => []
  | (e, cs) :: rest =>
    if cs.filter (fun q => decide (¬ (q.1 = sid))) = [] then removeShard sid rest
    else (e, cs.filter (fun q => decide (¬ (q.1 = sid)))) :: removeShard sid rest

/-- Subtract every recorded (edge, weight) pair of a list from the aggregate
mapping, in order. -/
def evictAgg : List ((String × String) × Nat) →
    List (String × List (String × Nat)) → List (String × List (String × Nat))
  | [], a => a
  | p :: A, a => evictAgg A (subEdge p.1.1 p.1.2 p.2 a)

/-- Modelled from the spec: `WordGraph.evictShard` is absent from the
repository.  Subtracts the shard's recorded contributions from every affected
edge, removes edges whose aggregate weight reaches zero, removes source-word
entries whose successor map becomes empty, and drops the shard id from the
merged set. -/
def evictShard (sid : Nat) (g : WordGraph) : WordGraph :=
  { mergedIds := g.mergedIds.erase sid
    agg := evictAgg (shardContribOf sid g.contribs) g.agg
    contribs := removeShard sid g.contribs }

/-- Modelled from the spec: `WordGraph.successorsOf`, the read-only lookup
used by the QueryEngine; absent from the repository. -/
def successorsOf (g : WordGraph) (w : String) :
    Option (List (String × Nat)) :=
  alookup w g.agg

/-- Modelled from the spec: `successorsOf` as a state transformer, making the
contract that the lookup leaves the WordGraph untouched statable. -/
def successorsOfSt (g : WordGraph) (w : String) :
    Option (List (String × Nat)) × WordGraph :=
  (successorsOf g w, g)

/-- Aggregated weight of edge (src, succ) in an aggregate mapping; zero when
the edge is absent. -/
def aggW (a : List (String × List (String × Nat))) (src succ : String) : Nat :=
  wval succ ((alookup src a).getD [])

/-- Aggregated weight of edge (src, succ) in the WordGraph. -/
def edgeW (g : WordGraph) (src succ : String) : Nat := aggW g.agg src succ

/-- The edge (src, succ) as stored: `none` when absent. -/
def edgeOpt (g : WordGraph) (src succ : String) : Option Nat :=
  (alookup src g.agg).bind (fun m => alookup succ m)

/-- The contribution of shard `sid` to edge `e` recorded in the bookkeeping. -/
def cw (c : List ((String × String) × List (Nat × Nat)))
    (e : String × String) (sid : Nat) : Nat :=
  wval sid ((alookup e c).getD [])

/-- Sum of all recorded per-shard contributions to edge `e`. -/
def cwSum (c : List ((String × String) × List (Nat × Nat)))
    (e : String × String) : Nat :=
  vsum ((alookup e c).getD [])

/-- Sum of the recorded contributions to edge `e` restricted to
currently-loaded shards. -/
def cwSumLoaded (g : WordGraph) (e : String × String) : Nat :=
  vsum (((alookup e g.contribs).getD []).filter
    (fun q => decide (q.1 ∈ g.mergedIds)))

/-- Total weight a list of triples assigns to edge (src, succ). -/
def tripleSum (T : List (String × String × Nat)) (src succ : String) : Nat :=
  ((T.filter (fun t => decide (t.1 = src ∧ t.2.1 = succ))).map
    (fun t => t.2.2)).sum

/-- Ascending lexical comparison of words as character lists, written
structurally so that it evaluates by kernel reduction. -/
def lexLeB : List Char → List Char → Bool
  | [], _ => true
  | _ :: _, [] => false
  | c :: cs, d :: ds => if c = d then lexLeB cs ds else decide (c < d)

theorem lexLeB_iff (x y : List Char) :
    lexLeB x y = true ↔ ¬ List.Lex (· < ·) y x := by
  induction x generalizing y with
  | nil =>
    cases y with
    | nil =>
      simp only [lexLeB, true_iff]
      intro h
      cases h
    | cons d ds =>
      simp only [lexLeB, true_iff]
      intro h
      cases h
  | cons c cs ih =>
    cases y with
    | nil =>
      simp only [lexLeB]
      constructor
      · intro h
        cases h
      · intro h
        exact absurd List.Lex.nil h
    | cons d ds =>
      by_cases hcd : c = d
      · subst hcd
        rw [lexLeB, if_pos rfl, ih ds]
        constructor
        · intro h hLex
          cases hLex with
          | cons h' => exact h h'
          | rel h' => exact absurd h' (lt_irrefl c)
        · intro h h'
          exact h (List.Lex.cons h')
      · rw [lexLeB, if_neg hcd]
        simp only [decide_eq_true_eq]
        constructor
        · intro hlt hLex
          cases hLex with
          | cons _ => exact hcd rfl
          | rel h' => exact absurd hlt (asymm h')
        · intro h
          rcases lt_trichotomy c d with h1 | h1 | h1
          · exact h1
          · exact absurd h1 hcd
          · exact absurd (List.Lex.rel h1) h

/-- Modelled from the spec: the QueryEngine ranking order — weight descending,
ties broken by successor word in ascending lexical order. -/
def suggRel (a b : String × Nat) : Prop :=
  b.2 < a.2 ∨ (a.2 = b.2 ∧ lexLeB a.1.data b.1.data = true)

/-- The ranking order coincides with weight descending, ties broken by the
ambient linear order on strings. -/
theorem suggRel_iff (a b : String × Nat) :
    suggRel a b ↔ b.2 < a.2 ∨ (a.2 = b.2 ∧ a.1 ≤ b.1) := by
  unfold suggRel
  rw [lexLeB_iff]
  constructor
  · rintro (h | ⟨h1, h2⟩)
    · exact Or.inl h
    · refine Or.inr ⟨h1, ?_⟩
      rw [String.le_iff_toList_le]
      exact not_lt.mp h2
  · rintro (h | ⟨h1, h2⟩)
    · exact Or.inl h
    · refine Or.inr ⟨h1, ?_⟩
      rw [String.le_iff_toList_le] at h2
      exact not_lt.mpr h2

instance suggRelDecidable : DecidableRel suggRel := fun a b => by
  unfold suggRel
  infer_instance

instance suggRelTotal : IsTotal (String × Nat) suggRel where
  total a b := by
    rw [suggRel_iff, suggRel_iff]
    rcases Nat.lt_trichotomy a.2 b.2 with h | h | h
    · exact Or.inr (Or.inl h)
    · rcases le_total a.1 b.1 with hw | hw
      · exact Or.inl (Or.inr ⟨h, hw⟩)
      · exact Or.inr (Or.inr ⟨h.symm, hw⟩)
    · exact Or.inl (Or.inl h)

instance suggRelTrans : IsTrans (String × Nat) suggRel where
  trans a b c hab hbc := by
    rw [suggRel_iff] at hab hbc ⊢
    rcases hab with h1 | ⟨h1, hw1⟩
    · rcases hbc with h2 | ⟨h2, _⟩
      · exact Or.inl (h2.trans h1)
      · exact Or.inl (h2 ▸ h1)
    · rcases hbc with h2 | ⟨h2, hw2⟩
      · exact Or.inl (h1 ▸ h2)
      · exact Or.inr ⟨h1.trans h2, le_trans hw1 hw2⟩

/-- Modelled from the spec: `QueryEngine.suggest`, absent from the repository.
Looks up the seed word, returns empty when absent, otherwise filters by the
minimum weight, sorts by weight descending with lexical tie-break, and
truncates to `maxResults`. -/
def suggest (g : WordGraph) (seedWord : String)
    (maxResults minWeight : Nat) : List (String × Nat) :=
  match successorsOf g seedWord with
  | none => []
  | some m =>
    (List.insertionSort suggRel
      (m.filter (fun p => decide (minWeight ≤ p.2)))).take maxResults

/-- The word-pair mapping of the repository's shard artifact `pairs/pair69.js`,
transcribed entry for entry in artifact order. -/
def pairs : List (String × List (String × Nat)) :=
  [ ("transactions", [("write-behind", 1)])
  , ("write-behind", [("write-through", 1), ("supported", 1)])
  , ("write-through", [("caches", 1), ("approach", 1), ("non-xa", 1)])
  , ("caches", [("transaction-enabled", 1)])
  , ("transaction-enabled", [("cache", 1)])
  , ("cache", [("used", 1), ("operations", 1)])
  , ("used", [("writer", 1), ("transactional", 1)])
  , ("writer", [("write", 1), ("responsible", 1)])
  , ("write", [("operations", 1)])
  , ("operations", [("queued", 1), ("part", 1), ("executed", 1), ("cause", 1)])
  , ("queued", [("until", 1)])
  , ("until", [("transaction", 1)])
  , ("transaction", [("commit", 1), ("write-behind", 1), ("writer", 1),
      ("using", 1), ("succeed", 1), ("rolled", 1)])
  , ("commit", [("time", 1)])
  , ("time", [("solely", 1)])
  , ("solely", [("write-through", 1)])
  , ("approach", [("potential", 1)])
  , ("potential", [("xaresource", 1)])
  , ("xaresource", [("participate", 1)])
  , ("participate", [("transaction", 1)])
  , ("supported", [("however", 1)])
  , ("however", [("probably", 1)])
  , ("probably", [("used", 1)])
  , ("transactional", [("cache", 1)])
  , ("part", [("transaction", 1)])
  , ("responsible", [("obtaining", 1)])
  , ("obtaining", [("new", 1)])
  , ("new", [("transaction", 1)])
  , ("using", [("write-through", 1)])
  , ("non-xa", [("resource", 1)])
  , ("resource", [("work", 1)])
  , ("work", [("guarantee", 1)])
  , ("guarantee", [("transaction", 1)])
  , ("succeed", [("write", 1)])
  , ("executed", [("hand", 1)])
  , ("hand", [("exception", 1)])
  , ("exception", [("thrown", 1)])
  , ("thrown", [("during", 1)])
  , ("during", [("write", 1)])
  , ("cause", [("transaction", 1)])
  , ("rolled", [("back", 1)])
  , ("back", [("having", 1)])
  , ("having", [("usertransaction.commit", 1)])
  , ("usertransaction.commit", [("throw", 1)])
  , ("throw", [("rollbackexception", 1)])
  ]

/-- The repository's shard artifact as a Shard value: shard number 69. -/
def pair69 : Shard := ⟨69, pairs⟩

/-- The WordGraph obtained by merging the repository's shard into the empty
graph. -/
def g69 : WordGraph := mergeShard pair69 emptyGraph

theorem tripleSum_nil (src succ : String) : tripleSum [] src succ = 0 := rfl

theorem tripleSum_cons (t : String × String × Nat)
    (T : List (String × String × Nat)) (src succ : String) :
    tripleSum (t :: T) src succ =
      (if t.1 = src ∧ t.2.1 = succ then t.2.2 else 0) + tripleSum T src succ := by
  unfold tripleSum
  rw [List.filter_cons]
  by_cases h : t.1 = src ∧ t.2.1 = succ
  · simp [h]
  · simp [h]

theorem aggW_addEdge_self (src succ : String) (w : Nat)
    (a : List (String × List (String × Nat))) :
    aggW (addEdge src succ w a) src succ = aggW a src succ + w := by
  unfold aggW addEdge
  rw [alookup_upsert_self]
  cases h : alookup src a with
  | none => simp [wval, alookup_cons]
  | some m => simp [wval_bump_self]

theorem aggW_addEdge_ne (src succ src' succ' : String) (w : Nat)
    (a : List (String × List (String × Nat)))
    (h : ¬ (src' = src ∧ succ' = succ)) :
    aggW (addEdge src succ w a) src' succ' = aggW a src' succ' := by
  unfold aggW addEdge
  by_cases hs : src' = src
  · subst hs
    have hsucc : succ' ≠ succ := fun e => h ⟨rfl, e⟩
    rw [alookup_upsert_self]
    cases hm : alookup src' a with
    | none => simp [wval, alookup_cons, if_neg (Ne.symm hsucc)]
    | some m => simp [wval_bump_ne _ _ hsucc]
  · rw [alookup_upsert_ne _ _ _ hs]

theorem aggW_addEdge_eval (s0 t0 src succ : String) (w : Nat)
    (a : List (String × List (String × Nat))) :
    aggW (addEdge s0 t0 w a) src succ =
      aggW a src succ + (if s0 = src ∧ t0 = succ then w else 0) := by
  by_cases h : s0 = src ∧ t0 = succ
  · rcases h with ⟨h1, h2⟩
    subst h1
    subst h2
    rw [aggW_addEdge_self, if_pos ⟨rfl, rfl⟩]
  · rw [aggW_addEdge_ne s0 t0 src succ w a (fun hx => h ⟨hx.1.symm, hx.2.symm⟩),
      if_neg h]
    omega

theorem aggW_mergeAgg (T : List (String × String × Nat))
    (a : List (String × List (String × Nat))) (src succ : String) :
    aggW (mergeAgg T a) src succ = aggW a src succ + tripleSum T src succ := by
  induction T generalizing a with
  | nil => simp [mergeAgg, tripleSum_nil]
  | cons t T ih =>
    show aggW (mergeAgg T (addEdge t.1 t.2.1 t.2.2 a)) src succ = _
    rw [ih, tripleSum_cons, aggW_addEdge_eval]
    omega

theorem cw_addContrib_self (e : String × String) (sid w : Nat)
    (c : List ((String × String) × List (Nat × Nat))) :
    cw (addContrib e sid w c) e sid = cw c e sid + w := by
  unfold cw addContrib
  rw [alookup_upsert_self]
  cases h : alookup e c with
  | none => simp [wval, alookup_cons]
  | some cs => simp [wval_bump_self]

theorem cw_addContrib_ne (e e' : String × String) (sid sid' w : Nat)
    (c : List ((String × String) × List (Nat × Nat)))
    (h : ¬ (e' = e ∧ sid' = sid)) :
    cw (addContrib e sid w c) e' sid' = cw c e' sid' := by
  unfold cw addContrib
  by_cases he : e' = e
  · subst he
    have hsid : sid' ≠ sid := fun x => h ⟨rfl, x⟩
    rw [alookup_upsert_self]
    cases hm : alookup e' c with
    | none => simp [wval, alookup_cons, if_neg (Ne.symm hsid)]
    | some cs => simp [wval_bump_ne _ _ hsid]
  · rw [alookup_upsert_ne _ _ _ he]

theorem cwSum_addContrib_self (e : String × String) (sid w : Nat)
    (c : List ((String × String) × List (Nat × Nat))) :
    cwSum (addContrib e sid w c) e = cwSum c e + w := by
  unfold cwSum addContrib
  rw [alookup_upsert_self]
  cases h : alookup e c with
  | none => simp
  | some cs => simp [vsum_bump]

theorem cwSum_addContrib_ne (e e' : String × String) (sid w : Nat)
    (c : List ((String × String) × List (Nat × Nat))) (h : e' ≠ e) :
    cwSum (addContrib e sid w c) e' = cwSum c e' := by
  unfold cwSum addContrib
  rw [alookup_upsert_ne _ _ _ h]

theorem cw_addContrib_eval (s0 t0 : String) (sid sid' w : Nat)
    (c : List ((String × String) × List (Nat × Nat))) (e : String × String) :
    cw (addContrib (s0, t0) sid w c) e sid' =
      cw c e sid' + (if s0 = e.1 ∧ t0 = e.2 ∧ sid' = sid then w else 0) := by
  by_cases h : s0 = e.1 ∧ t0 = e.2 ∧ sid' = sid
  · have he : e = (s0, t0) := by
      cases e with
      | mk e1 e2 =>
        rw [Prod.mk.injEq]
        exact ⟨h.1.symm, h.2.1.symm⟩
    rw [if_pos h, he, h.2.2, cw_addContrib_self]
  · have hne : ¬ (e = (s0, t0) ∧ sid' = sid) :=
      fun hx => h ⟨by rw [hx.1], by rw [hx.1], hx.2⟩
    rw [if_neg h, cw_addContrib_ne (s0, t0) e sid sid' w c hne]
    omega

theorem cw_mergeContribs (sid : Nat) (T : List (String × String × Nat))
    (c : List ((String × String) × List (Nat × Nat))) (e : String × String)
    (sid' : Nat) :
    cw (mergeContribs sid T c) e sid' =
      cw c e sid' + (if sid' = sid then tripleSum T e.1 e.2 else 0) := by
  induction T generalizing c with
  | nil => simp [mergeContribs, tripleSum_nil]
  | cons t T ih =>
    show cw (mergeContribs sid T (addContrib (t.1, t.2.1) sid t.2.2 c)) e sid' = _
    rw [ih, tripleSum_cons, cw_addContrib_eval]
    by_cases hsid : sid' = sid
    · rw [if_pos hsid, if_pos hsid]
      by_cases hc : t.1 = e.1 ∧ t.2.1 = e.2
      · rw [if_pos ⟨hc.1, hc.2, hsid⟩, if_pos hc]
        omega
      · rw [if_neg (fun hx => hc ⟨hx.1, hx.2.1⟩), if_neg hc]
        omega
    · rw [if_neg hsid, if_neg hsid, if_neg (fun hx => hsid hx.2.2)]

theorem cwSum_addContrib_eval (s0 t0 : String) (sid w : Nat)
    (c : List ((String × String) × List (Nat × Nat))) (e : String × String) :
    cwSum (addContrib (s0, t0) sid w c) e =
      cwSum c e + (if s0 = e.1 ∧ t0 = e.2 then w else 0) := by
  by_cases h : s0 = e.1 ∧ t0 = e.2
  · have he : e = (s0, t0) := by
      cases e with
      | mk e1 e2 =>
        rw [Prod.mk.injEq]
        exact ⟨h.1.symm, h.2.symm⟩
    rw [if_pos h, he, cwSum_addContrib_self]
  · have hne : e ≠ (s0, t0) := fun hx => h ⟨by rw [hx], by rw [hx]⟩
    rw [if_neg h, cwSum_addContrib_ne (s0, t0) e sid w c hne]
    omega

theorem cwSum_mergeContribs (sid : Nat) (T : List (String × String × Nat))
    (c : List ((String × String) × List (Nat × Nat))) (e : String × String) :
    cwSum (mergeContribs sid T c) e = cwSum c e + tripleSum T e.1 e.2 := by
  induction T generalizing c with
  | nil => simp [mergeContribs, tripleSum_nil]
  | cons t T ih =>
    show cwSum (mergeContribs sid T (addContrib (t.1, t.2.1) sid t.2.2 c)) e = _
    rw [ih, tripleSum_cons, cwSum_addContrib_eval]
    by_cases hc : t.1 = e.1 ∧ t.2.1 = e.2
    · rw [if_pos hc]
      omega
    · rw [if_neg hc]
      omega

/-- Well-formedness of a successor map: unique successor keys, non-empty, and
strictly positive weights. -/
def entryWF (m : List (String × Nat)) : Prop :=
  (akeys m).Nodup ∧ m ≠ [] ∧ ∀ q ∈ m, 0 < q.2

/-- Well-formedness of the aggregate mapping: unique source keys and
well-formed successor maps. -/
def aggWF (a : List (String × List (String × Nat))) : Prop :=
  (akeys a).Nodup ∧ ∀ p ∈ a, entryWF p.2

/-- Well-formedness of one edge's contribution map relative to the loaded
shard ids: unique shard keys, non-empty, positive weights, and every
contributing shard currently loaded. -/
def centryWF (ids : List Nat) (cs : List (Nat × Nat)) : Prop :=
  (akeys cs).Nodup ∧ cs ≠ [] ∧ ∀ q ∈ cs, 0 < q.2 ∧ q.1 ∈ ids

/-- Well-formedness of the contribution bookkeeping. -/
def contribsWF (ids : List Nat)
    (c : List ((String × String) × List (Nat × Nat))) : Prop :=
  (akeys c).Nodup ∧ ∀ p ∈ c, centryWF ids p.2

/-- Full well-formedness of a WordGraph: well-formed components, no duplicate
shard ids, and every aggregated edge weight equal to the sum of its recorded
per-shard contributions. -/
def WF (g : WordGraph) : Prop :=
  aggWF g.agg ∧ contribsWF g.mergedIds g.contribs ∧ g.mergedIds.Nodup ∧
  ∀ src succ, edgeW g src succ = cwSum g.contribs (src, succ)

/-- A shard as accepted by the ShardLoader's validation: successor keys unique
within each source word and positive weights (source keys are unique as well,
as in any artifact object literal). -/
def ValidShard (s : Shard) : Prop :=
  (akeys s.data).Nodup ∧ ∀ p ∈ s.data, (akeys p.2).Nodup ∧ ∀ q ∈ p.2, 0 < q.2

instance validShardDecidable (s : Shard) : Decidable (ValidShard s) := by
  unfold ValidShard
  infer_instance

theorem WF_emptyGraph : WF emptyGraph := by
  refine ⟨⟨List.nodup_nil, ?_⟩, ⟨List.nodup_nil, ?_⟩, List.nodup_nil, ?_⟩
  · intro p hp
    cases hp
  · intro p hp
    cases hp
  · intro src succ
    rfl

theorem shardTriples_pos {s : Shard} (hs : ValidShard s) :
    ∀ t ∈ shardTriples s, 0 < t.2.2 := by
  intro t ht
  unfold shardTriples at ht
  rw [List.mem_flatMap] at ht
  obtain ⟨p, hp, ht⟩ := ht
  rw [List.mem_map] at ht
  obtain ⟨q, hq, rfl⟩ := ht
  exact (hs.2 p hp).2 q hq

theorem entryWF_bump (k : String) (w : Nat) (m : List (String × Nat))
    (h : entryWF m) (hw : 0 < w) : entryWF (bump k w m) := by
  refine ⟨nodup_akeys_upsert _ _ _ _ h.1, upsert_ne_nil _ _ _ _, ?_⟩
  exact upsert_forall (fun _ v => 0 < v) h.2.2 hw (fun v hv => by omega)

theorem aggWF_addEdge (src succ : String) (w : Nat)
    (a : List (String × List (String × Nat))) (h : aggWF a) (hw : 0 < w) :
    aggWF (addEdge src succ w a) := by
  refine ⟨nodup_akeys_upsert _ _ _ _ h.1, ?_⟩
  apply upsert_forall (fun _ m => entryWF m) h.2
  · refine ⟨by simp, by simp, ?_⟩
    intro q hq
    rw [List.mem_singleton] at hq
    subst hq
    exact hw
  · exact fun m hm => entryWF_bump succ w m hm hw

theorem aggWF_mergeAgg (T : List (String × String × Nat))
    (a : List (String × List (String × Nat))) (h : aggWF a)
    (hT : ∀ t ∈ T, 0 < t.2.2) : aggWF (mergeAgg T a) := by
  induction T generalizing a with
  | nil => exact h
  | cons t T ih =>
    show aggWF (mergeAgg T (addEdge t.1 t.2.1 t.2.2 a))
    exact ih _ (aggWF_addEdge _ _ _ _ h (hT t (List.mem_cons_self _ _)))
      (fun t' ht' => hT t' (List.mem_cons_of_mem _ ht'))

theorem centryWF_bump (sid w : Nat) (ids : List Nat) (cs : List (Nat × Nat))
    (h : centryWF ids cs) (hw : 0 < w) (hsid : sid ∈ ids) :
    centryWF ids (bump sid w cs) := by
  refine ⟨nodup_akeys_upsert _ _ _ _ h.1, upsert_ne_nil _ _ _ _, ?_⟩
  exact upsert_forall (fun k v => 0 < v ∧ k ∈ ids) h.2.2 ⟨hw, hsid⟩
    (fun v hv => ⟨by omega, hv.2⟩)

theorem contribsWF_addContrib (e : String × String) (sid w : Nat)
    (ids : List Nat) (c : List ((String × String) × List (Nat × Nat)))
    (h : contribsWF ids c) (hw : 0 < w) (hsid : sid ∈ ids) :
    contribsWF ids (addContrib e sid w c) := by
  refine ⟨nodup_akeys_upsert _ _ _ _ h.1, ?_⟩
  apply upsert_forall (fun _ cs => centryWF ids cs) h.2
  · refine ⟨by simp, by simp, ?_⟩
    intro q hq
    rw [List.mem_singleton] at hq
    subst hq
    exact ⟨hw, hsid⟩
  · exact fun cs hcs => centryWF_bump sid w ids cs hcs hw hsid

theorem contribsWF_mergeContribs (sid : Nat) (T : List (String × String × Nat))
    (ids : List Nat) (c : List ((String × String) × List (Nat × Nat)))
    (h : contribsWF ids c) (hT : ∀ t ∈ T, 0 < t.2.2) (hsid : sid ∈ ids) :
    contribsWF ids (mergeContribs sid T c) := by
  induction T generalizing c with
  | nil => exact h
  | cons t T ih =>
    show contribsWF ids (mergeContribs sid T (addContrib (t.1, t.2.1) sid t.2.2 c))
    exact ih _ (contribsWF_addContrib _ _ _ _ _ h (hT t (List.mem_cons_self _ _)) hsid)
      (fun t' ht' => hT t' (List.mem_cons_of_mem _ ht'))

theorem contribsWF_mono {ids ids' : List Nat}
    {c : List ((String × String) × List (Nat × Nat))}
    (hsub : ∀ x ∈ ids, x ∈ ids') (h : contribsWF ids c) : contribsWF ids' c :=
  ⟨h.1, fun p hp =>
    ⟨(h.2 p hp).1, (h.2 p hp).2.1,
     fun q hq => ⟨((h.2 p hp).2.2 q hq).1, hsub _ ((h.2 p hp).2.2 q hq).2⟩⟩⟩

theorem mergeShard_mem {s : Shard} {g : WordGraph} (h : s.sid ∈ g.mergedIds) :
    mergeShard s g = g := by
  unfold mergeShard
  rw [if_pos h]

theorem mergeShard_not_mem {s : Shard} {g : WordGraph}
    (h : s.sid ∉ g.mergedIds) :
    mergeShard s g =
      ⟨s.sid :: g.mergedIds, mergeAgg (shardTriples s) g.agg,
       mergeContribs s.sid (shardTriples s) g.contribs⟩ := by
  unfold mergeShard
  rw [if_neg h]

theorem cw_eq_zero {ids : List Nat}
    {c : List ((String × String) × List (Nat × Nat))} (hc : contribsWF ids c)
    {sid : Nat} (hsid : sid ∉ ids) (e : String × String) : cw c e sid = 0 := by
  unfold cw
  cases h : alookup e c with
  | none => rfl
  | some cs =>
    simp only [Option.getD_some]
    unfold wval
    cases h2 : alookup sid cs with
    | none => rfl
    | some w =>
      exfalso
      exact hsid ((hc.2 (e, cs) (alookup_mem h)).2.2 (sid, w) (alookup_mem h2)).2

theorem WF_mergeShard (s : Shard) (g : WordGraph) (hs : ValidShard s)
    (hg : WF g) : WF (mergeShard s g) := by
  by_cases h : s.sid ∈ g.mergedIds
  · rw [mergeShard_mem h]
    exact hg
  · rw [mergeShard_not_mem h]
    refine ⟨?_, ?_, ?_, ?_⟩
    · exact aggWF_mergeAgg _ _ hg.1 (shardTriples_pos hs)
    · exact contribsWF_mergeContribs _ _ _ _
        (contribsWF_mono (fun x hx => List.mem_cons_of_mem _ hx) hg.2.1)
        (shardTriples_pos hs) (List.mem_cons_self _ _)
    · exact List.nodup_cons.mpr ⟨h, hg.2.2.1⟩
    · intro src succ
      show aggW (mergeAgg (shardTriples s) g.agg) src succ =
        cwSum (mergeContribs s.sid (shardTriples s) g.contribs) (src, succ)
      rw [aggW_mergeAgg, cwSum_mergeContribs]
      rw [show aggW g.agg src succ = cwSum g.contribs (src, succ) from
        hg.2.2.2 src succ]

theorem aggW_subEdge_eval (s0 t0 src succ : String) (w : Nat)
    (a : List (String × List (String × Nat))) (hN : (akeys a).Nodup)
    (hI : ∀ p ∈ a, (akeys p.2).Nodup) :
    aggW (subEdge s0 t0 w a) src succ =
      aggW a src succ - (if s0 = src ∧ t0 = succ then w else 0) := by
  split_ifs with hc
  · obtain ⟨h1, h2⟩ := hc
    subst h1
    subst h2
    unfold aggW subEdge
    rw [alookup_adjust_self _ _ _ hN]
    cases hm : alookup s0 a with
    | none => simp [wval]
    | some m =>
      have hmN : (akeys m).Nodup := hI (s0, m) (alookup_mem hm)
      simp only [Option.some_bind]
      by_cases hemp : wsub t0 w m = []
      · rw [if_pos hemp]
        have hv := wval_wsub_self t0 w m hmN
        rw [hemp] at hv
        simp only [Option.getD_none, Option.getD_some]
        exact hv
      · rw [if_neg hemp]
        simp only [Option.getD_some]
        exact wval_wsub_self t0 w m hmN
  · rw [Nat.sub_zero]
    unfold aggW subEdge
    by_cases hs : s0 = src
    · subst hs
      have ht : ¬ (t0 = succ) := fun hx => hc ⟨rfl, hx⟩
      have htn : succ ≠ t0 := fun hx => ht hx.symm
      rw [alookup_adjust_self _ _ _ hN]
      cases hm : alookup s0 a with
      | none => simp
      | some m =>
        simp only [Option.some_bind]
        by_cases hemp : wsub t0 w m = []
        · rw [if_pos hemp]
          have hv := wval_wsub_ne w m htn
          rw [hemp] at hv
          simp only [Option.getD_none, Option.getD_some]
          exact hv
        · rw [if_neg hemp]
          simp only [Option.getD_some]
          exact wval_wsub_ne w m htn
    · have hsn : src ≠ s0 := fun hx => hs hx.symm
      rw [alookup_adjust_ne _ _ hsn]

theorem subEdge_keysNodup (s0 t0 : String) (w : Nat)
    (a : List (String × List (String × Nat))) (hN : (akeys a).Nodup) :
    (akeys (subEdge s0 t0 w a)).Nodup :=
  nodup_akeys_adjust _ _ _ hN

theorem subEdge_innerNodup (s0 t0 : String) (w : Nat)
    (a : List (String × List (String × Nat)))
    (hI : ∀ p ∈ a, (akeys p.2).Nodup) :
    ∀ p ∈ subEdge s0 t0 w a, (akeys p.2).Nodup := by
  apply adjust_forall (fun _ m => (akeys m).Nodup) hI
  intro v v' hv hfv
  by_cases hemp : wsub t0 w v = []
  · rw [if_pos hemp] at hfv
    cases hfv
  · rw [if_neg hemp] at hfv
    cases hfv
    exact nodup_akeys_adjust _ _ _ hv

theorem entryWF_wsub (t0 : String) (w : Nat) (m : List (String × Nat))
    (h : entryWF m) (hemp : wsub t0 w m ≠ []) : entryWF (wsub t0 w m) := by
  refine ⟨nodup_akeys_adjust _ _ _ h.1, hemp, ?_⟩
  apply adjust_forall (fun _ v => 0 < v) h.2.2
  intro v v' hv hfv
  by_cases h0 : v - w = 0
  · rw [if_pos h0] at hfv
    cases hfv
  · rw [if_neg h0] at hfv
    cases hfv
    omega

theorem aggWF_subEdge (s0 t0 : String) (w : Nat)
    (a : List (String × List (String × Nat))) (h : aggWF a) :
    aggWF (subEdge s0 t0 w a) := by
  refine ⟨nodup_akeys_adjust _ _ _ h.1, ?_⟩
  apply adjust_forall (fun _ m => entryWF m) h.2
  intro v v' hv hfv
  by_cases hemp : wsub t0 w v = []
  · rw [if_pos hemp] at hfv
    cases hfv
  · rw [if_neg hemp] at hfv
    cases hfv
    exact entryWF_wsub t0 w v hv hemp

theorem aggWF_evictAgg (A : List ((String × String) × Nat))
    (a : List (String × List (String × Nat))) (h : aggWF a) :
    aggWF (evictAgg A a) := by
  induction A generalizing a with
  | nil => exact h
  | cons p A ih =>
    show aggWF (evictAgg A (subEdge p.1.1 p.1.2 p.2 a))
    exact ih _ (aggWF_subEdge _ _ _ _ h)

/-- Total weight a list of (edge, weight) pairs assigns to edge (src, succ). -/
def subSum (A : List ((String × String) × Nat)) (src succ : String) : Nat :=
  ((A.filter (fun p => decide (p.1 = (src, succ)))).map Prod.snd).sum

theorem subSum_nil (src succ : String) : subSum [] src succ = 0 := rfl

theorem subSum_cons (p : (String × String) × Nat)
    (A : List ((String × String) × Nat)) (src succ : String) :
    subSum (p :: A) src succ =
      (if p.1 = (src, succ) then p.2 else 0) + subSum A src succ := by
  unfold subSum
  rw [List.filter_cons]
  by_cases h : p.1 = (src, succ)
  · simp [h]
  · simp [h]

theorem aggW_evictAgg (A : List ((String × String) × Nat))
    (a : List (String × List (String × Nat))) (src succ : String)
    (hN : (akeys a).Nodup) (hI : ∀ p ∈ a, (akeys p.2).Nodup) :
    aggW (evictAgg A a) src succ = aggW a src succ - subSum A src succ := by
  induction A generalizing a with
  | nil => simp [evictAgg, subSum_nil]
  | cons p A ih =>
    show aggW (evictAgg A (subEdge p.1.1 p.1.2 p.2 a)) src succ = _
    rw [ih _ (subEdge_keysNodup _ _ _ _ hN) (subEdge_innerNodup _ _ _ _ hI),
      aggW_subEdge_eval _ _ _ _ _ _ hN hI, subSum_cons]
    by_cases hc : p.1.1 = src ∧ p.1.2 = succ
    · have hp : p.1 = (src, succ) := by
        cases hp1 : p.1 with
        | mk x y =>
          rw [hp1] at hc
          rw [Prod.mk.injEq]
          exact hc
      rw [if_pos hc, if_pos hp]
      omega
    · have hp : p.1 ≠ (src, succ) := by
        intro hx
        exact hc ⟨by rw [hx], by rw [hx]⟩
      rw [if_neg hc, if_neg hp]
      omega

theorem subSum_shardContribOf_zero (sid : Nat)
    (c : List ((String × String) × List (Nat × Nat))) (src succ : String)
    (h : (src, succ) ∉ akeys c) :
    subSum (shardContribOf sid c) src succ = 0 := by
  induction c with
  | nil => rfl
  | cons hd tl ih =>
    cases hd with
    | mk e cs =>
      rw [akeys_cons, List.mem_cons] at h
      push_neg at h
      unfold shardContribOf
      rw [List.filterMap_cons]
      cases hcs : alookup sid cs with
      | none => exact ih h.2
      | some w =>
        simp only [Option.map_some']
        rw [subSum_cons]
        rw [if_neg (by simpa using Ne.symm h.1)]
        have := ih h.2
        unfold shardContribOf at this
        rw [this]

theorem subSum_shardContribOf (sid : Nat)
    (c : List ((String × String) × List (Nat × Nat))) (src succ : String)
    (hN : (akeys c).Nodup) :
    subSum (shardContribOf sid c) src succ = cw c (src, succ) sid := by
  induction c with
  | nil => rfl
  | cons hd tl ih =>
    cases hd with
    | mk e cs =>
      rw [akeys_cons, List.nodup_cons] at hN
      unfold shardContribOf
      rw [List.filterMap_cons]
      by_cases he : e = (src, succ)
      · subst he
        cases hcs : alookup sid cs with
        | none =>
          simp only [Option.map_none']
          have h0 := subSum_shardContribOf_zero sid tl src succ hN.1
          unfold shardContribOf at h0
          rw [h0]
          unfold cw
          rw [alookup_cons, if_pos rfl]
          simp [wval, hcs]
        | some w =>
          simp only [Option.map_some']
          rw [subSum_cons, if_pos rfl]
          have h0 := subSum_shardContribOf_zero sid tl src succ hN.1
          unfold shardContribOf at h0
          rw [h0]
          unfold cw
          rw [alookup_cons, if_pos rfl]
          simp [wval, hcs]
      · have hstep : cw tl (src, succ) sid = cw ((e, cs) :: tl) (src, succ) sid := by
          unfold cw
          rw [alookup_cons, if_neg he]
        cases hcs : alookup sid cs with
        | none =>
          simp only [Option.map_none']
          rw [← hstep]
          exact ih hN.2
        | some w =>
          simp only [Option.map_some']
          rw [subSum_cons, if_neg (by simpa using he), ← hstep]
          have := ih hN.2
          unfold shardContribOf at this
          rw [this]
          omega

theorem akeys_removeShard_sublist (sid : Nat)
    (c : List ((String × String) × List (Nat × Nat))) :
    List.Sublist (akeys (removeShard sid c)) (akeys c) := by
  induction c with
  | nil => exact List.Sublist.refl _
  | cons hd tl ih =>
    cases hd with
    | mk e cs =>
      unfold removeShard
      by_cases hemp : cs.filter (fun q => decide (¬ (q.1 = sid))) = []
      · rw [if_pos hemp]
        exact List.Sublist.cons _ ih
      · rw [if_neg hemp]
        exact List.Sublist.cons₂ _ ih

theorem mem_removeShard {sid : Nat}
    {c : List ((String × String) × List (Nat × Nat))}
    {p : (String × String) × List (Nat × Nat)} (hp : p ∈ removeShard sid c) :
    ∃ cs, (p.1, cs) ∈ c ∧
      p.2 = cs.filter (fun q => decide (¬ (q.1 = sid))) ∧ p.2 ≠ [] := by
  induction c with
  | nil => cases hp
  | cons hd tl ih =>
    cases hd with
    | mk e cs =>
      unfold removeShard at hp
      by_cases hemp : cs.filter (fun q => decide (¬ (q.1 = sid))) = []
      · rw [if_pos hemp] at hp
        obtain ⟨cs', h1, h2, h3⟩ := ih hp
        exact ⟨cs', List.mem_cons_of_mem _ h1, h2, h3⟩
      · rw [if_neg hemp] at hp
        rcases List.mem_cons.mp hp with h | h
        · refine ⟨cs, ?_, ?_, ?_⟩
          · rw [h]
            exact List.mem_cons_self _ _
          · rw [h]
          · rw [h]
            exact hemp
        · obtain ⟨cs', h1, h2, h3⟩ := ih h
          exact ⟨cs', List.mem_cons_of_mem _ h1, h2, h3⟩

theorem cwSum_removeShard (sid : Nat)
    (c : List ((String × String) × List (Nat × Nat))) (e : String × String)
    (hN : (akeys c).Nodup) (hI : ∀ p ∈ c, (akeys p.2).Nodup) :
    cwSum (removeShard sid c) e = cwSum c e - cw c e sid := by
  induction c with
  | nil => rfl
  | cons hd tl ih =>
    cases hd with
    | mk e0 cs =>
      rw [akeys_cons, List.nodup_cons] at hN
      have hcsN : (akeys cs).Nodup := hI (e0, cs) (List.mem_cons_self _ _)
      have hItl : ∀ p ∈ tl, (akeys p.2).Nodup :=
        fun p hp => hI p (List.mem_cons_of_mem _ hp)
      unfold removeShard
      by_cases he : e0 = e
      · subst he
        have hor : cwSum ((e0, cs) :: tl) e0 = vsum cs := by
          unfold cwSum
          rw [alookup_cons, if_pos rfl]
          rfl
        have hcw : cw ((e0, cs) :: tl) e0 sid = wval sid cs := by
          unfold cw
          rw [alookup_cons, if_pos rfl]
          rfl
        rw [hor, hcw]
        by_cases hemp : cs.filter (fun q => decide (¬ (q.1 = sid))) = []
        · rw [if_pos hemp]
          have hnone : alookup e0 (removeShard sid tl) = none :=
            alookup_eq_none
              (fun hmem => hN.1 ((akeys_removeShard_sublist sid tl).subset hmem))
          unfold cwSum
          rw [hnone]
          have hv := vsum_filter_ne sid cs hcsN
          rw [hemp] at hv
          simpa using hv
        · rw [if_neg hemp]
          unfold cwSum
          rw [alookup_cons, if_pos rfl]
          simpa using vsum_filter_ne sid cs hcsN
      · have hs1 : cwSum ((e0, cs) :: tl) e = cwSum tl e := by
          unfold cwSum
          rw [alookup_cons, if_neg he]
        have hs2 : cw ((e0, cs) :: tl) e sid = cw tl e sid := by
          unfold cw
          rw [alookup_cons, if_neg he]
        rw [hs1, hs2]
        by_cases hemp : cs.filter (fun q => decide (¬ (q.1 = sid))) = []
        · rw [if_pos hemp]
          exact ih hN.2 hItl
        · rw [if_neg hemp]
          have hs3 : cwSum ((e0, cs.filter (fun q => decide (¬ (q.1 = sid)))) ::
              removeShard sid tl) e = cwSum (removeShard sid tl) e := by
            unfold cwSum
            rw [alookup_cons, if_neg he]
          rw [hs3]
          exact ih hN.2 hItl

theorem contribsWF_removeShard (sid : Nat) (ids : List Nat)
    (c : List ((String × String) × List (Nat × Nat))) (h : contribsWF ids c) :
    contribsWF (ids.erase sid) (removeShard sid c) := by
  refine ⟨(akeys_removeShard_sublist sid c).nodup h.1, ?_⟩
  intro p hp
  obtain ⟨cs, hmem, heq, hne⟩ := mem_removeShard hp
  have hcs := h.2 (p.1, cs) hmem
  refine ⟨?_, hne, ?_⟩
  · rw [heq]
    exact ((List.filter_sublist _).map Prod.fst).nodup hcs.1
  · intro q hq
    rw [heq] at hq
    rw [List.mem_filter] at hq
    have h1 := hcs.2.2 q hq.1
    have h2 : ¬ (q.1 = sid) := by simpa using hq.2
    exact ⟨h1.1, (List.mem_erase_of_ne h2).mpr h1.2⟩

theorem edgeW_evictShard (sid : Nat) (g : WordGraph)
    (hN : (akeys g.agg).Nodup) (hI : ∀ p ∈ g.agg, (akeys p.2).Nodup)
    (hcN : (akeys g.contribs).Nodup) (src succ : String) :
    edgeW (evictShard sid g) src succ =
      edgeW g src succ - cw g.contribs (src, succ) sid := by
  show aggW (evictAgg (shardContribOf sid g.contribs) g.agg) src succ = _
  rw [aggW_evictAgg _ _ _ _ hN hI, subSum_shardContribOf _ _ _ _ hcN]
  rfl

theorem WF_evictShard (sid : Nat) (g : WordGraph) (hg : WF g) :
    WF (evictShard sid g) := by
  obtain ⟨hA, hC, hids, heq⟩ := hg
  have hIn : ∀ p ∈ g.agg, (akeys p.2).Nodup := fun p hp => (hA.2 p hp).1
  have hcI : ∀ p ∈ g.contribs, (akeys p.2).Nodup := fun p hp => (hC.2 p hp).1
  refine ⟨aggWF_evictAgg _ _ hA, contribsWF_removeShard sid _ _ hC,
    hids.erase _, ?_⟩
  intro src succ
  show aggW (evictAgg (shardContribOf sid g.contribs) g.agg) src succ =
    cwSum (removeShard sid g.contribs) (src, succ)
  rw [aggW_evictAgg _ _ _ _ hA.1 hIn, subSum_shardContribOf _ _ _ _ hC.1,
    cwSum_removeShard _ _ _ hC.1 hcI,
    show aggW g.agg src succ = cwSum g.contribs (src, succ) from heq src succ]

/-- Edge-for-edge equality of two WordGraphs: the same source words are
present, and every edge is stored with the same aggregated weight. -/
def GraphEq (g1 g2 : WordGraph) : Prop :=
  (∀ src, (alookup src g1.agg).isSome = (alookup src g2.agg).isSome) ∧
  (∀ src succ, edgeOpt g1 src succ = edgeOpt g2 src succ)

theorem edgeOpt_eq_of_WF (g : WordGraph) (hg : WF g) (src succ : String) :
    edgeOpt g src succ =
      if edgeW g src succ = 0 then none else some (edgeW g src succ) := by
  unfold edgeOpt edgeW aggW
  cases hm : alookup src g.agg with
  | none => simp [wval]
  | some m =>
    simp only [Option.some_bind, Option.getD_some]
    cases hv : alookup succ m with
    | none => simp [wval, hv]
    | some v =>
      have hpos : 0 < v :=
        (hg.1.2 (src, m) (alookup_mem hm)).2.2 (succ, v) (alookup_mem hv)
      unfold wval
      rw [hv]
      simp only [Option.getD_some]
      rw [if_neg (by omega)]

theorem isSome_iff_of_WF (g : WordGraph) (hg : WF g) (src : String) :
    (alookup src g.agg).isSome = true ↔ ∃ succ, edgeW g src succ ≠ 0 := by
  constructor
  · intro h
    cases hm : alookup src g.agg with
    | none =>
      rw [hm] at h
      cases h
    | some m =>
      have hWF := hg.1.2 (src, m) (alookup_mem hm)
      cases m with
      | nil => exact absurd rfl hWF.2.1
      | cons q m' =>
        refine ⟨q.1, ?_⟩
        unfold edgeW aggW
        rw [hm]
        simp only [Option.getD_some]
        have hq : wval q.1 (q :: m') = q.2 := by
          unfold wval
          cases q with
          | mk qk qv =>
            rw [alookup_cons, if_pos rfl]
            rfl
        rw [hq]
        have := hWF.2.2 q (List.mem_cons_self _ _)
        omega
  · rintro ⟨succ, hsucc⟩
    cases hm : alookup src g.agg with
    | none =>
      exfalso
      apply hsucc
      unfold edgeW aggW
      rw [hm]
      rfl
    | some m => simp [hm]

theorem graphEq_of_edgeW (g1 g2 : WordGraph) (h1 : WF g1) (h2 : WF g2)
    (he : ∀ src succ, edgeW g1 src succ = edgeW g2 src succ) :
    GraphEq g1 g2 := by
  constructor
  · intro src
    rw [Bool.eq_iff_iff, isSome_iff_of_WF g1 h1 src, isSome_iff_of_WF g2 h2 src]
    constructor
    · rintro ⟨succ, hs⟩
      exact ⟨succ, by rw [← he]; exact hs⟩
    · rintro ⟨succ, hs⟩
      exact ⟨succ, by rw [he]; exact hs⟩
  · intro src succ
    rw [edgeOpt_eq_of_WF g1 h1, edgeOpt_eq_of_WF g2 h2, he]

/-- The two data-model invariants exactly as the specification states them:
aggregated weight equals the sum of per-shard contributions from
currently-loaded shards, and a source word is present only while its
successor map is non-empty. -/
def Inv (g : WordGraph) : Prop :=
  (∀ src succ, edgeW g src succ = cwSumLoaded g (src, succ)) ∧
  (∀ p ∈ g.agg, p.2 ≠ [])

theorem WF_imp_Inv (g : WordGraph) (hg : WF g) : Inv g := by
  constructor
  · intro src succ
    rw [hg.2.2.2 src succ]
    unfold cwSum cwSumLoaded
    cases hm : alookup (src, succ) g.contribs with
    | none => rfl
    | some cs =>
      simp only [Option.getD_some]
      have hfil : cs.filter (fun q => decide (q.1 ∈ g.mergedIds)) = cs :=
        List.filter_eq_self.mpr (fun q hq => by
          simpa using ((hg.2.1.2 ((src, succ), cs) (alookup_mem hm)).2.2 q hq).2)
      rw [hfil]
  · intro p hp
    exact (hg.1.2 p hp).2.1

theorem edgeW_mergeShard {s : Shard} {g : WordGraph}
    (h : s.sid ∉ g.mergedIds) (src succ : String) :
    edgeW (mergeShard s g) src succ =
      edgeW g src succ + tripleSum (shardTriples s) src succ := by
  rw [mergeShard_not_mem h]
  show aggW (mergeAgg (shardTriples s) g.agg) src succ = _
  rw [aggW_mergeAgg]
  rfl

theorem cw_mergeShard {s : Shard} {g : WordGraph}
    (h : s.sid ∉ g.mergedIds) (e : String × String) (sid' : Nat) :
    cw (mergeShard s g).contribs e sid' =
      cw g.contribs e sid' +
        (if sid' = s.sid then tripleSum (shardTriples s) e.1 e.2 else 0) := by
  rw [mergeShard_not_mem h]
  exact cw_mergeContribs _ _ _ _ _

theorem mergedIds_mergeShard {s : Shard} {g : WordGraph}
    (h : s.sid ∉ g.mergedIds) :
    (mergeShard s g).mergedIds = s.sid :: g.mergedIds := by
  rw [mergeShard_not_mem h]

theorem c1_edgeW (S1 S2 : Shard) (g : WordGraph) (h1 : ValidShard S1)
    (h2 : ValidShard S2) (hg : WF g) (hid : S1.sid ≠ S2.sid)
    (hfresh : S1.sid ∉ g.mergedIds) (src succ : String) :
    edgeW (evictShard S1.sid (mergeShard S2 (mergeShard S1 g))) src succ =
      edgeW (mergeShard S2 g) src succ := by
  have hg1 : WF (mergeShard S1 g) := WF_mergeShard S1 g h1 hg
  have hids1 : (mergeShard S1 g).mergedIds = S1.sid :: g.mergedIds :=
    mergedIds_mergeShard hfresh
  have hcw0 : cw g.contribs (src, succ) S1.sid = 0 :=
    cw_eq_zero hg.2.1 hfresh (src, succ)
  by_cases hmem : S2.sid ∈ (mergeShard S1 g).mergedIds
  · have hmem' : S2.sid ∈ g.mergedIds := by
      rw [hids1] at hmem
      rcases List.mem_cons.mp hmem with h | h
      · exact absurd h.symm hid
      · exact h
    rw [mergeShard_mem hmem, mergeShard_mem hmem']
    rw [edgeW_evictShard S1.sid (mergeShard S1 g) hg1.1.1
      (fun p hp => (hg1.1.2 p hp).1) hg1.2.1.1 src succ]
    rw [edgeW_mergeShard hfresh, cw_mergeShard hfresh, if_pos rfl, hcw0]
    dsimp only
    omega
  · have hmem' : S2.sid ∉ g.mergedIds := by
      intro hx
      apply hmem
      rw [hids1]
      exact List.mem_cons_of_mem _ hx
    have hg2 : WF (mergeShard S2 (mergeShard S1 g)) :=
      WF_mergeShard S2 _ h2 hg1
    rw [edgeW_evictShard S1.sid (mergeShard S2 (mergeShard S1 g)) hg2.1.1
      (fun p hp => (hg2.1.2 p hp).1) hg2.2.1.1 src succ]
    rw [edgeW_mergeShard hmem, edgeW_mergeShard hfresh,
      cw_mergeShard hmem, cw_mergeShard hfresh, if_pos rfl, if_neg hid, hcw0]
    rw [edgeW_mergeShard hmem']
    dsimp only
    omega

theorem suggest_pairwise (g : WordGraph) (seed : String) (maxR minW : Nat) :
    List.Pairwise suggRel (suggest g seed maxR minW) := by
  unfold suggest
  cases successorsOf g seed with
  | none => simp
  | some m =>
    exact ((List.sorted_insertionSort suggRel _).sublist
      (List.take_sublist _ _)).imp id

theorem suggest_minWeight (g : WordGraph) (seed : String) (maxR minW : Nat) :
    ∀ p ∈ suggest g seed maxR minW, minW ≤ p.2 := by
  unfold suggest
  cases successorsOf g seed with
  | none => simp
  | some m =>
    intro p hp
    have h1 := List.mem_of_mem_take hp
    rw [List.mem_insertionSort] at h1
    rw [List.mem_filter] at h1
    simpa using h1.2

theorem suggest_length (g : WordGraph) (seed : String) (maxR minW : Nat) :
    (suggest g seed maxR minW).length ≤ maxR := by
  unfold suggest
  cases successorsOf g seed with
  | none => simp
  | some m => exact List.length_take_le _ _

theorem suggest_mem (g : WordGraph) (seed : String) (maxR minW : Nat)
    {m : List (String × Nat)} (hm : successorsOf g seed = some m) :
    ∀ p ∈ suggest g seed maxR minW, p ∈ m := by
  unfold suggest
  rw [hm]
  intro p hp
  have h1 := List.mem_of_mem_take hp
  rw [List.mem_insertionSort] at h1
  exact (List.mem_filter.mp h1).1

theorem suggest_absent (g : WordGraph) (seed : String) (maxR minW : Nat)
    (h : successorsOf g seed = none) : suggest g seed maxR minW = [] := by
  unfold suggest
  rw [h]

/-- A character allowed in a lowercase word token of the artifact. -/
def isTokenChar (c : Char) : Bool :=
  c.isLower || c.isDigit || c = '-' || c = '.'

/-- Modelled from the spec: a lowercase word token — non-empty and made of
lowercase letters, digits, hyphens and periods (no uppercase letters). -/
def isLowerToken (s : String) : Bool :=
  !s.isEmpty && s.data.all isTokenChar

/-- Modelled from the spec: the shard artifact format checked by the
ShardLoader validation, which is absent from the repository — every top-level
key a lowercase word token, successor keys unique within a source word and
themselves lowercase tokens, and weights positive integers. -/
def WellFormedArtifact (d : List (String × List (String × Nat))) : Prop :=
  (akeys d).Nodup ∧ ∀ p ∈ d, isLowerToken p.1 = true ∧ (akeys p.2).Nodup ∧
    ∀ q ∈ p.2, isLowerToken q.1 = true ∧ 0 < q.2

instance wellFormedArtifactDecidable (d : List (String × List (String × Nat))) :
    Decidable (WellFormedArtifact d) := by
  unfold WellFormedArtifact
  infer_instance

/-- Modelled from the spec: the outcome of `ShardLoader.load` — a parsed
shard, a format error, or a missing artifact. -/
inductive LoadResult where
  | ok (s : Shard)
  | formatError
  | notFoundShard
deriving DecidableEq

/-- Modelled from the spec: `ShardStore.fetch` for this repository — shard 69
is the only artifact present. -/
def fetchStore (sid : Nat) : Option (List (String × List (String × Nat))) :=
  if sid = 69 then some pairs else none

/-- Modelled from the spec: `ShardLoader.load` fetches the artifact by id and
validates it atomically — the shard is accepted in full or rejected in
full. -/
def load (sid : Nat) : LoadResult :=
  match fetchStore sid with
  | none => LoadResult.notFoundShard
  | some d => if WellFormedArtifact d then LoadResult.ok ⟨sid, d⟩
              else LoadResult.formatError

/-- An observable engine event, in chronological order of invocation. -/
inductive Ev where
  | fetch (sid : Nat)
  | unload (sid : Nat)
  | evictG (sid : Nat)
  | merged (sid : Nat)
deriving DecidableEq

/-- Modelled from the spec: the mutable state owned by the Controller — the
LRU list of loaded shard ids (most recently used first), the ShardLoader
cache, the WordGraph, and a chronological log of engine events making
invocation order and fetch counts observable. -/
structure SysState where
  capacity : Nat
  lru : List Nat
  cache : List Nat
  graph : WordGraph
  log : List Ev
deriving DecidableEq

/-- Modelled from the spec: the Controller's ensure-loaded step under the LRU
EvictionPolicy, absent from the repository.  Accessing an already-loaded shard
marks it most recently used.  Loading a new shard when at capacity first
evicts the least-recently-used shard id — `ShardLoader.unload` then
`WordGraph.evictShard`, in that order — then fetches, parses and merges the
new shard. -/
def ensureLoaded (store : Nat → List (String × List (String × Nat)))
    (st : SysState) (sid : Nat) : SysState :=
  if sid ∈ st.lru then { st with lru := sid :: st.lru.erase sid }
  else
    let st1 :=
      if st.capacity ≤ st.lru.length then
        match st.lru.getLast? with
        | some v =>
          { st with
              lru := st.lru.dropLast
              cache := st.cache.erase v
              graph := evictShard v st.graph
              log := st.log ++ [Ev.unload v, Ev.evictG v] }
        | none => st
      else st
    { st1 with
        lru := sid :: st1.lru
        cache := sid :: st1.cache
        graph := mergeShard ⟨sid, store sid⟩ st1.graph
        log := st1.log ++ [Ev.fetch sid, Ev.merged sid] }

/-- The state of a cold process: nothing loaded, nothing logged. -/
def initState (cap : Nat) : SysState := ⟨cap, [], [], emptyGraph, []⟩

/-- All weights stored in the pair69 WordGraph equal one. -/
theorem g69_weights_one : ∀ p ∈ g69.agg, ∀ q ∈ p.2, q.2 = 1 := by decide

/-- A one-edge shard with shard id 1, used as a concrete test vehicle. -/
def cexShard : Shard := ⟨1, [("a", [("b", 1)])]⟩

/-- A one-edge shard with shard id 2, disjoint from `cexShard`. -/
def cexShard2 : Shard := ⟨2, [("c", [("d", 2)])]⟩

/-- C1 counterexample: for S1 = S2 = `cexShard` (the same shard id twice) on
the empty WordGraph, `mergeShard S1; mergeShard S2; evictShard S1` yields the
empty graph, while `mergeShard S2` alone yields the one-edge graph — so the
claim as stated, quantifying over every pair of shards, fails at this concrete
input. -/
theorem c1_counterexample :
    ¬ GraphEq (evictShard cexShard.sid
        (mergeShard cexShard (mergeShard cexShard emptyGraph)))
      (mergeShard cexShard emptyGraph) := by
  intro h
  exact absurd (h.2 "a" "b") (by decide)

/-- C1 (amended): for ShardLoader-valid shards S1 and S2 with distinct shard
ids and any well-formed WordGraph in which S1's id is not yet merged,
`mergeShard S1; mergeShard S2; evictShard S1` yields a WordGraph equal
edge-for-edge (same source words, same successor maps, same aggregated
weights) to `mergeShard S2` alone on the same initial graph. -/
theorem c1_merge_evict_inverse (S1 S2 : Shard) (g : WordGraph)
    (h1 : ValidShard S1) (h2 : ValidShard S2) (hg : WF g)
    (hid : S1.sid ≠ S2.sid) (hfresh : S1.sid ∉ g.mergedIds) :
    GraphEq (evictShard S1.sid (mergeShard S2 (mergeShard S1 g)))
      (mergeShard S2 g) :=
  graphEq_of_edgeW _ _
    (WF_evictShard _ _ (WF_mergeShard _ _ h2 (WF_mergeShard _ _ h1 hg)))
    (WF_mergeShard _ _ h2 hg)
    (c1_edgeW S1 S2 g h1 h2 hg hid hfresh)

theorem c1_merge_evict_inverse_witness :
    ValidShard cexShard ∧ ValidShard cexShard2 ∧ WF emptyGraph ∧
      cexShard.sid ≠ cexShard2.sid ∧ cexShard.sid ∉ emptyGraph.mergedIds ∧
      GraphEq (evictShard cexShard.sid
          (mergeShard cexShard2 (mergeShard cexShard emptyGraph)))
        (mergeShard cexShard2 emptyGraph) :=
  ⟨by decide, by decide, WF_emptyGraph, by decide, by decide,
   c1_merge_evict_inverse cexShard cexShard2 emptyGraph (by decide) (by decide)
     WF_emptyGraph (by decide) (by decide)⟩

/-- C2: every suggestion result is sorted by weight descending with ties
broken by successor word in ascending lexical order, every returned entry
meets the minimum weight, and the result length is at most `maxResults`. -/
theorem c2_suggest_ordering (g : WordGraph) (seed : String) (maxR minW : Nat) :
    List.Pairwise
        (fun a b : String × Nat => b.2 < a.2 ∨ (a.2 = b.2 ∧ a.1 ≤ b.1))
        (suggest g seed maxR minW) ∧
      (∀ p ∈ suggest g seed maxR minW, minW ≤ p.2) ∧
      (suggest g seed maxR minW).length ≤ maxR :=
  ⟨(suggest_pairwise g seed maxR minW).imp
      (fun {a b} h => (suggRel_iff a b).mp h),
   suggest_minWeight g seed maxR minW, suggest_length g seed maxR minW⟩

theorem c2_suggest_ordering_witness :
    ("commit", 1) ∈ suggest g69 "transaction" 3 1 ∧
      1 ≤ (("commit", 1) : String × Nat).2 ∧
      List.Pairwise
        (fun a b : String × Nat => b.2 < a.2 ∨ (a.2 = b.2 ∧ a.1 ≤ b.1))
        (suggest g69 "transaction" 3 1) ∧
      (suggest g69 "transaction" 3 1).length ≤ 3 :=
  ⟨by decide,
   (c2_suggest_ordering g69 "transaction" 3 1).2.1 ("commit", 1) (by decide),
   (c2_suggest_ordering g69 "transaction" 3 1).1,
   (c2_suggest_ordering g69 "transaction" 3 1).2.2⟩

/-- C3: with shard pair69 merged, seed "transaction" has the six unit-weight
successors recorded in the artifact, and `suggest` with maxResults 3 and
minWeight 1 returns exactly the three lexically smallest, in order. -/
theorem c3_transaction_example :
    successorsOf g69 "transaction" =
      some [("commit", 1), ("write-behind", 1), ("writer", 1), ("using", 1),
        ("succeed", 1), ("rolled", 1)] ∧
    suggest g69 "transaction" 3 1 =
      [("commit", 1), ("rolled", 1), ("succeed", 1)] := by
  constructor
  · decide
  · decide

/-- C4: with shard pair69 merged, seed "write-behind" has the two unit-weight
successors recorded in the artifact, and `suggest` with maxResults 2 returns
them with the tie broken lexically. -/
theorem c4_write_behind_example :
    successorsOf g69 "write-behind" =
      some [("write-through", 1), ("supported", 1)] ∧
    suggest g69 "write-behind" 2 0 =
      [("supported", 1), ("write-through", 1)] := by
  constructor
  · decide
  · decide

/-- C5: merging a shard whose id is already in the merged set is a no-op, and
therefore merging the same shard twice yields the same WordGraph as merging
it once — no double counting. -/
theorem c5_merge_idempotent (s : Shard) (g : WordGraph) :
    (s.sid ∈ g.mergedIds → mergeShard s g = g) ∧
      mergeShard s (mergeShard s g) = mergeShard s g := by
  constructor
  · exact fun h => mergeShard_mem h
  · by_cases h : s.sid ∈ g.mergedIds
    · rw [mergeShard_mem h, mergeShard_mem h]
    · have hmem : s.sid ∈ (mergeShard s g).mergedIds := by
        rw [mergedIds_mergeShard h]
        exact List.mem_cons_self _ _
      rw [mergeShard_mem hmem]

theorem c5_merge_idempotent_witness :
    (1 : Nat) ∈ (WordGraph.mk [1] [] []).mergedIds ∧
      mergeShard ⟨1, []⟩ (WordGraph.mk [1] [] []) = WordGraph.mk [1] [] [] ∧
      mergeShard ⟨1, []⟩ (mergeShard ⟨1, []⟩ (WordGraph.mk [1] [] [])) =
        mergeShard ⟨1, []⟩ (WordGraph.mk [1] [] []) :=
  ⟨by decide,
   (c5_merge_idempotent ⟨1, []⟩ (WordGraph.mk [1] [] [])).1 (by decide),
   (c5_merge_idempotent ⟨1, []⟩ (WordGraph.mk [1] [] [])).2⟩

/-- C6: the empty WordGraph is well-formed; well-formedness implies the two
specified data-model invariants (aggregated weight = sum of per-shard
contributions from loaded shards, and source words present only with
non-empty successor maps); mergeShard and evictShard preserve them; and
successorsOf leaves the WordGraph untouched. -/
theorem c6_invariants :
    WF emptyGraph ∧
      (∀ g, WF g → Inv g) ∧
      (∀ s g, ValidShard s → WF g →
        WF (mergeShard s g) ∧ Inv (mergeShard s g)) ∧
      (∀ sid g, WF g → WF (evictShard sid g) ∧ Inv (evictShard sid g)) ∧
      (∀ g w, (successorsOfSt g w).2 = g) :=
  ⟨WF_emptyGraph, WF_imp_Inv,
   fun s g hs hg =>
     ⟨WF_mergeShard s g hs hg, WF_imp_Inv _ (WF_mergeShard s g hs hg)⟩,
   fun sid g hg =>
     ⟨WF_evictShard sid g hg, WF_imp_Inv _ (WF_evictShard sid g hg)⟩,
   fun _ _ => rfl⟩

theorem c6_invariants_witness :
    WF emptyGraph ∧ Inv emptyGraph ∧ ValidShard pair69 ∧
      (WF (mergeShard pair69 emptyGraph) ∧ Inv (mergeShard pair69 emptyGraph)) ∧
      (WF (evictShard 69 (mergeShard pair69 emptyGraph)) ∧
        Inv (evictShard 69 (mergeShard pair69 emptyGraph))) ∧
      (successorsOfSt emptyGraph "transaction").2 = emptyGraph :=
  ⟨c6_invariants.1,
   c6_invariants.2.1 emptyGraph c6_invariants.1,
   by decide,
   c6_invariants.2.2.1 pair69 emptyGraph (by decide) c6_invariants.1,
   c6_invariants.2.2.2.1 69 (mergeShard pair69 emptyGraph)
     (c6_invariants.2.2.1 pair69 emptyGraph (by decide) c6_invariants.1).1,
   c6_invariants.2.2.2.2 emptyGraph "transaction"⟩

/-- C7: querying a word with no recorded successors returns the empty sequence
as a normal result, for every graph and every query parameters; in particular,
after evicting shard 69 — the only shard containing "transaction" — the query
returns empty rather than failing. -/
theorem c7_unknown_word :
    (∀ (g : WordGraph) (seed : String) (maxR minW : Nat),
        successorsOf g seed = none → suggest g seed maxR minW = []) ∧
      suggest (evictShard 69 (mergeShard pair69 emptyGraph)) "transaction" 10 0
        = [] :=
  ⟨fun g seed maxR minW h => suggest_absent g seed maxR minW h, by decide⟩

theorem c7_unknown_word_witness :
    successorsOf emptyGraph "absent" = none ∧
      suggest emptyGraph "absent" 5 0 = [] :=
  ⟨rfl, c7_unknown_word.1 emptyGraph "absent" 5 0 rfl⟩

/-- C8: the pair69 artifact conforms to the declared shard format — lowercase
word-token keys, positive integer weights, successor keys unique within each
source word — and the modelled ShardLoader accepts it in full. -/
theorem c8_artifact_wellformed :
    WellFormedArtifact pairs ∧ load 69 = LoadResult.ok pair69 := by
  constructor
  · decide
  · decide

/-- C10: every edge weight in the pair69 artifact equals exactly 1, so every
suggestion result drawn from the merged pair69 graph ties on weight and is
ordered purely by ascending lexical order of the successor words. -/
theorem c10_unit_weights_lexical :
    (∀ p ∈ pairs, ∀ q ∈ p.2, q.2 = 1) ∧
      ∀ (seed : String) (maxR minW : Nat),
        List.Pairwise (fun a b : String × Nat => a.1 ≤ b.1)
          (suggest g69 seed maxR minW) := by
  constructor
  · decide
  · intro seed maxR minW
    cases hm : successorsOf g69 seed with
    | none =>
      rw [suggest_absent g69 seed maxR minW hm]
      exact List.Pairwise.nil
    | some m =>
      have hsub := suggest_mem g69 seed maxR minW hm
      have hw1 : ∀ p ∈ suggest g69 seed maxR minW, p.2 = 1 := by
        intro p hp
        exact g69_weights_one (seed, m) (alookup_mem hm) p (hsub p hp)
      refine (suggest_pairwise g69 seed maxR minW).imp_of_mem ?_
      intro a b ha hb hr
      rw [suggRel_iff] at hr
      rcases hr with h | h
      · rw [hw1 a ha, hw1 b hb] at h
        exact absurd h (by omega)
      · exact h.2

theorem c10_unit_weights_lexical_witness :
    ("transactions", [("write-behind", (1 : Nat))]) ∈ pairs ∧
      ("write-behind", (1 : Nat)) ∈ [("write-behind", (1 : Nat))] ∧
      (("write-behind", (1 : Nat)) : String × Nat).2 = 1 ∧
      List.Pairwise (fun a b : String × Nat => a.1 ≤ b.1)
        (suggest g69 "transaction" 3 1) :=
  ⟨by decide, by decide,
   c10_unit_weights_lexical.1 ("transactions", [("write-behind", 1)])
     (by decide) ("write-behind", 1) (by decide),
   c10_unit_weights_lexical.2 "transaction" 3 1⟩

/-- C9: with LRU capacity 2, loading shards A, B, C in order evicts A —
`ShardLoader.unload` then `WordGraph.evictShard`, in that order, before C is
merged — and a subsequent access to A re-fetches it from the ShardStore,
incrementing the count of fetch events for A. -/
theorem c9_lru_eviction (store : Nat → List (String × List (String × Nat)))
    (A B C : Nat) (hAB : A ≠ B) (hAC : A ≠ C) (hBC : B ≠ C) :
    A ∉ (ensureLoaded store (ensureLoaded store (ensureLoaded store
        (initState 2) A) B) C).lru ∧
    (ensureLoaded store (ensureLoaded store (ensureLoaded store
        (initState 2) A) B) C).log =
      [Ev.fetch A, Ev.merged A, Ev.fetch B, Ev.merged B,
       Ev.unload A, Ev.evictG A, Ev.fetch C, Ev.merged C] ∧
    (ensureLoaded store (ensureLoaded store (ensureLoaded store (ensureLoaded
        store (initState 2) A) B) C) A).log.count (Ev.fetch A) =
      (ensureLoaded store (ensureLoaded store (ensureLoaded store
        (initState 2) A) B) C).log.count (Ev.fetch A) + 1 := by
  have s1 : ensureLoaded store (initState 2) A =
      ⟨2, [A], [A], mergeShard ⟨A, store A⟩ emptyGraph,
       [Ev.fetch A, Ev.merged A]⟩ := by
    simp [ensureLoaded, initState]
  have s2 : ensureLoaded store
      (⟨2, [A], [A], mergeShard ⟨A, store A⟩ emptyGraph,
        [Ev.fetch A, Ev.merged A]⟩ : SysState) B =
      ⟨2, [B, A], [B, A],
       mergeShard ⟨B, store B⟩ (mergeShard ⟨A, store A⟩ emptyGraph),
       [Ev.fetch A, Ev.merged A, Ev.fetch B, Ev.merged B]⟩ := by
    simp [ensureLoaded, Ne.symm hAB]
  have s3 : ensureLoaded store
      (⟨2, [B, A], [B, A],
        mergeShard ⟨B, store B⟩ (mergeShard ⟨A, store A⟩ emptyGraph),
        [Ev.fetch A, Ev.merged A, Ev.fetch B, Ev.merged B]⟩ : SysState) C =
      ⟨2, [C, B], [C, B],
       mergeShard ⟨C, store C⟩ (evictShard A
         (mergeShard ⟨B, store B⟩ (mergeShard ⟨A, store A⟩ emptyGraph))),
       [Ev.fetch A, Ev.merged A, Ev.fetch B, Ev.merged B,
        Ev.unload A, Ev.evictG A, Ev.fetch C, Ev.merged C]⟩ := by
    simp [ensureLoaded, Ne.symm hAC, Ne.symm hBC, List.erase_cons,
      Ne.symm hAB, hAB]
  have s4 : ensureLoaded store
      (⟨2, [C, B], [C, B],
        mergeShard ⟨C, store C⟩ (evictShard A
          (mergeShard ⟨B, store B⟩ (mergeShard ⟨A, store A⟩ emptyGraph))),
        [Ev.fetch A, Ev.merged A, Ev.fetch B, Ev.merged B,
         Ev.unload A, Ev.evictG A, Ev.fetch C, Ev.merged C]⟩ : SysState) A =
      ⟨2, [A, C], [A, C],
       mergeShard ⟨A, store A⟩ (evictShard B
         (mergeShard ⟨C, store C⟩ (evictShard A
           (mergeShard ⟨B, store B⟩ (mergeShard ⟨A, store A⟩ emptyGraph))))),
       [Ev.fetch A, Ev.merged A, Ev.fetch B, Ev.merged B,
        Ev.unload A, Ev.evictG A, Ev.fetch C, Ev.merged C,
        Ev.unload B, Ev.evictG B, Ev.fetch A, Ev.merged A]⟩ := by
    simp [ensureLoaded, hAC, hAB, hBC, List.erase_cons, Ne.symm hBC]
  rw [s1, s2, s3, s4]
  refine ⟨?_, rfl, ?_⟩
  · intro hmem
    rcases List.mem_cons.mp hmem with h | h
    · exact hAC h
    · rw [List.mem_singleton] at h
      exact hAB h
  · simp [List.count_cons, hAB, hAC, Ne.symm hAB, Ne.symm hAC]

theorem c9_lru_eviction_witness :
    (1 : Nat) ≠ 2 ∧ (1 : Nat) ≠ 3 ∧ (2 : Nat) ≠ 3 ∧
      (1 ∉ (ensureLoaded (fun _ => []) (ensureLoaded (fun _ => [])
          (ensureLoaded (fun _ => []) (initState 2) 1) 2) 3).lru ∧
       (ensureLoaded (fun _ => []) (ensureLoaded (fun _ => [])
          (ensureLoaded (fun _ => []) (initState 2) 1) 2) 3).log =
         [Ev.fetch 1, Ev.merged 1, Ev.fetch 2, Ev.merged 2,
          Ev.unload 1, Ev.evictG 1, Ev.fetch 3, Ev.merged 3] ∧
       (ensureLoaded (fun _ => []) (ensureLoaded (fun _ => [])
          (ensureLoaded (fun _ => []) (ensureLoaded (fun _ => [])
            (initState 2) 1) 2) 3) 1).log.count (Ev.fetch 1) =
         (ensureLoaded (fun _ => []) (ensureLoaded (fun _ => [])
            (ensureLoaded (fun _ => []) (initState 2) 1) 2) 3).log.count
           (Ev.fetch 1) + 1) :=
  ⟨by decide, by decide, by decide,
   c9_lru_eviction (fun _ => []) 1 2 3 (by decide) (by decide) (by decide)⟩

end WordPairs
